import Mathlib

/-!
Shallow embedding of the MIR dataflow analysis and graph-rewriting engine
found in src/librustc/mir/transform/dataflow.rs and
src/librustc/mir/transform/lattice.rs, together with theorems settling the
claims about it.

The embedding is parameterised over the statement type, the terminator type
and the lattice carrier, which the engine treats as opaque.  In-place
mutation in the Rust source is modelled by explicit state passing; panics
(assert, debug_assert, expect, unimplemented) are modelled by the
`Except String` monad; the machine-level `BitVector` worklist (whose source
is not part of the repository snapshot) is modelled from the spec as a
deduplicating list.
-/

namespace MirDataflow

/-- The operations of the `Lattice` trait from lattice.rs: `bottom()` and the
mutating `join(&mut self, other) -> bool`, modelled as a function returning
the new value of `self` together with the change flag. -/
structure LatticeOps (L : Type) where
  bot : L
  join : L → L → L × Bool

/-- The two-point Boolean lattice (false below true, join is or), used to
instantiate the generic theorems on concrete inputs. -/
def boolOps : LatticeOps Bool :=
  ⟨false, fun a b => (a || b, !a && b)⟩

/-- The `WTop` wrapper from lattice.rs: a lattice extended with a `Top`
point. -/
inductive WTop (T : Type) : Type where
  | top : WTop T
  | value : T → WTop T
deriving DecidableEq, Repr

/-- Join for `WTop`, translated arm by arm from
`impl<T: Lattice> Lattice for WTop<T>` (lattice.rs lines 47-56): wrapped
values join via the inner lattice; `Top` on the left absorbs with no change;
otherwise (a wrapped value on the left, `Top` on the right) the left side
becomes `Top` and reports a change. -/
def WTop.joinW (jo : T → T → T × Bool) : WTop T → WTop T → WTop T × Bool
  | .value a, .value b => ((WTop.value (jo a b).1), (jo a b).2)
  | .top, _ => (.top, false)
  | .value _, .top => (.top, true)

/-- `WTop`'s `bottom()` wraps the inner bottom (lattice.rs lines 43-45). -/
def WTop.latticeOps (Lo : LatticeOps T) : LatticeOps (WTop T) :=
  ⟨.value Lo.bot, WTop.joinW Lo.join⟩

/-- The `WBottom` wrapper from lattice.rs: a lattice extended with a
`Bottom` point. -/
inductive WBottom (T : Type) : Type where
  | bottom : WBottom T
  | value : T → WBottom T
deriving DecidableEq, Repr

/-- Join for `WBottom`, translated arm by arm from
`impl<T: Lattice> Lattice for WBottom<T>` (lattice.rs lines 94-104):
wrapped values join via the inner lattice; `Bottom` on the right never
changes the left side; otherwise (`Bottom` on the left, a wrapped value on
the right) the left side adopts the right value and reports a change. -/
def WBottom.joinW (jo : T → T → T × Bool) : WBottom T → WBottom T → WBottom T × Bool
  | .value a, .value b => ((WBottom.value (jo a b).1), (jo a b).2)
  | a, .bottom => (a, false)
  | .bottom, .value b => (.value b, true)

/-- `WBottom`'s `bottom()` is the `Bottom` marker (lattice.rs lines 90-92). -/
def WBottom.latticeOps (_Lo : LatticeOps T) : LatticeOps (WBottom T) :=
  ⟨.bottom, WBottom.joinW _Lo.join⟩

/-- Key lookup in the association-list model of `HashMap<K, T>`. -/
def mapLookup [DecidableEq K] (k : K) : List (K × V) → Option V
  | [] => none
  | (k', v) :: rest => if k' = k then some v else mapLookup k rest

/-- Replacing the value stored at a key in the association-list model of
`HashMap<K, T>`; keys are never added by this operation. -/
def mapReplace [DecidableEq K] (k : K) (v : V) : List (K × V) → List (K × V)
  | [] => []
  | (k', w) :: rest =>
    if k' = k then (k', v) :: rest else (k', w) :: mapReplace k v rest

/-- One iteration of the `HashMap` join loop (lattice.rs lines 149-157): a
vacant key is inserted and the change flag set; an occupied key has the
incoming value joined into the stored one, or-ing the change flags. -/
def mapJoinStep [DecidableEq K] (jo : V → V → V × Bool)
    (acc : List (K × V) × Bool) (kv : K × V) : List (K × V) × Bool :=
  match mapLookup kv.1 acc.1 with
  | none => (acc.1 ++ [kv], true)
  | some w => (mapReplace kv.1 (jo w kv.2).1 acc.1, acc.2 || (jo w kv.2).2)

/-- The union join of `impl Lattice for HashMap` (lattice.rs lines
147-159): fold the per-entry step over the other mapping, starting from an
unchanged flag. -/
def mapJoin [DecidableEq K] (jo : V → V → V × Bool)
    (self other : List (K × V)) : List (K × V) × Bool :=
  other.foldl (mapJoinStep jo) (self, false)

/-- `HashMap`'s `bottom()` is the empty mapping (lattice.rs lines 144-146). -/
def mapBottom (K V : Type) : List (K × V) := []

/-- The read-only accessor of `Facts` (dataflow.rs lines 156-161,
`impl Index for Facts`): `self.0.get(index).expect(..)`.  An out-of-range
index panics in the source, modelled by `none`. -/
def Facts.index? (fs : List L) (i : Nat) : Option L := fs.get? i

/-- The auto-extension performed by the mutable accessor of `Facts`
(dataflow.rs lines 163-170, `impl IndexMut for Facts`): when the slot does
not yet exist, `put(index, bottom())` extends the vector with `bottom()`
for every position from the current length up to and including the index
(dataflow.rs lines 149-153); otherwise the store is untouched. -/
def Facts.ensure (Lo : LatticeOps L) (fs : List L) (i : Nat) : List L :=
  if i < fs.length then fs else fs ++ List.replicate (i + 1 - fs.length) Lo.bot

/-- `StatementChange` from dataflow.rs lines 123-138: the outcome of a
statement rewrite. -/
inductive StatementChange (Stmt : Type) : Type where
  | noChange : StatementChange Stmt
  | remove : StatementChange Stmt
  | stmt : Stmt → StatementChange Stmt
  | graph : Nat → Nat → StatementChange Stmt
deriving DecidableEq, Repr

/-- `TerminatorChange` from dataflow.rs lines 108-121: the outcome of a
terminator rewrite. -/
inductive TerminatorChange (Term : Type) : Type where
  | noChange : TerminatorChange Term
  | terminator : Term → TerminatorChange Term
  | graph : Nat → Nat → TerminatorChange Term
deriving DecidableEq, Repr

/-- A statement rewriter `Rewrite::stmt(&self, &Statement, &Lattice,
&mut Mir) -> StatementChange`, with the mutable borrow of the graph
modelled by threading a state of type `M`. -/
def StmtRewriter (Stmt L M : Type) : Type := Stmt → L → M → StatementChange Stmt × M

/-- A terminator rewriter `Rewrite::term(&self, &Terminator, &Lattice,
&mut Mir) -> TerminatorChange`. -/
def TermRewriter (Term L M : Type) : Type := Term → L → M → TerminatorChange Term × M

/-- `RewriteAndThen` on statements (dataflow.rs lines 79-92): run the first
rewriter; on `None` run the second on the original statement, on `Remove`
stop, on `Statement` run the second on the replacement and keep the
replacement if the second reports no change; the remaining (`Graph`) arm is
`unimplemented!()`, modelled by `none`. -/
def rewriteAndThenStmt (r1 r2 : StmtRewriter Stmt L M) (s : Stmt) (l : L) (c : M) :
    Option (StatementChange Stmt × M) :=
  match r1 s l c with
  | (.noChange, c1) => some (r2 s l c1)
  | (.remove, c1) => some (.remove, c1)
  | (.stmt ns, c1) =>
    match r2 ns l c1 with
    | (.noChange, c2) => some (.stmt ns, c2)
    | x => some x
  | (.graph _ _, _) => none

/-- `RewriteAndThen` on terminators (dataflow.rs lines 94-105), with the
same shape as the statement case minus the `Remove` arm. -/
def rewriteAndThenTerm (r1 r2 : TermRewriter Term L M) (t : Term) (l : L) (c : M) :
    Option (TerminatorChange Term × M) :=
  match r1 t l c with
  | (.noChange, c1) => some (r2 t l c1)
  | (.terminator nt, c1) =>
    match r2 nt l c1 with
    | (.noChange, c2) => some (.terminator nt, c2)
    | x => some x
  | (.graph _ _, _) => none

/-- A basic block: an ordered list of statements and at most one terminator
(`Option` because the engine temporarily `take()`s the terminator while
rewriting). -/
structure BBlock (Stmt Term : Type) : Type where
  statements : List Stmt
  terminator : Option Term
deriving DecidableEq, Repr

/-- The arena of basic blocks addressed by dense indices. -/
def Mir (Stmt Term : Type) : Type := List (BBlock Stmt Term)

/-- `mir[i]` read access; out-of-range indexing panics in the source,
modelled by an error. -/
def getBlk (m : Mir Stmt Term) (i : Nat) : Except String (BBlock Stmt Term) :=
  match m.get? i with
  | some b => .ok b
  | none => .error "basic block index out of range"

/-- Write access to one block of the arena, used to model field updates
through `mir[i]`. -/
def updateBlk (m : Mir Stmt Term) (i : Nat) (f : BBlock Stmt Term → BBlock Stmt Term) :
    Mir Stmt Term :=
  match m.get? i with
  | some b => m.set i (f b)
  | none => m

/-- The `StatementChange::Graph { entry, exit }` arm of
`analyse_rewrite_statements` (dataflow.rs lines 296-311), one source line at
a time: append the tail of the statement list (after the rewritten index) to
the exit block; `debug_assert!` that the exit block has no terminator; move
the current block's terminator to the exit block; pop the rewritten
statement; move the entry block's statements onto the statement list; move
the entry block's terminator to the current block.  Returns the updated
arena and statement list. -/
def applyGraphSplice (m : Mir Stmt Term) (bb entry exit : Nat)
    (stmts : List Stmt) (idx : Nat) :
    Except String (Mir Stmt Term × List Stmt) := do
  let _ ← getBlk m exit
  let m := updateBlk m exit fun b => { b with statements := b.statements ++ stmts.drop (idx + 1) }
  let stmts := stmts.take (idx + 1)
  let xb ← getBlk m exit
  if xb.terminator.isSome then
    Except.error "exit block must have no terminator set!"
  else
    let bbb ← getBlk m bb
    let t := bbb.terminator
    let m := updateBlk m bb fun b => { b with terminator := none }
    let m := updateBlk m exit fun b => { b with terminator := t }
    let stmts := stmts.dropLast
    let eb ← getBlk m entry
    let es := eb.statements
    let m := updateBlk m entry fun b => { b with statements := [] }
    let stmts := stmts ++ es
    let eb2 ← getBlk m entry
    let t2 := eb2.terminator
    let m := updateBlk m entry fun b => { b with terminator := none }
    let m := updateBlk m bb fun b => { b with terminator := t2 }
    pure (m, stmts)

/-- The per-statement loop of `analyse_rewrite_statements` (dataflow.rs
lines 278-315), with an explicit fuel bound because an adversarial rewriter
can keep the loop running forever.  The loop breaks when the statement
index runs past the end of the list; `StatementChange::None` advances the
fact through the transfer function and moves on; `Remove` deletes the
statement without advancing the index; `Statement` replaces it in place and
advances; `Graph` splices the subgraph in and, when a statement now sits at
the current index, advances the fact through it without advancing the
index. -/
def arsLoop (rw : StmtRewriter Stmt L (Mir Stmt Term)) (Ts : Stmt → L → L) :
    Nat → Mir Stmt Term → Nat → L → List Stmt → Nat →
    Except String (Mir Stmt Term × List Stmt × L)
  | 0, _, _, _, _, _ => .error "analysis loop fuel exhausted"
  | fuel + 1, m, bb, fact, stmts, idx =>
    match stmts.get? idx with
    | none => .ok (m, stmts, fact)
    | some s =>
      match rw s fact m with
      | (.noChange, m') => arsLoop rw Ts fuel m' bb (Ts s fact) stmts (idx + 1)
      | (.remove, m') => arsLoop rw Ts fuel m' bb fact (stmts.eraseIdx idx) idx
      | (.stmt ns, m') => arsLoop rw Ts fuel m' bb (Ts ns fact) (stmts.set idx ns) (idx + 1)
      | (.graph entry exit, m') => do
        let (m1, stmts1) ← applyGraphSplice m' bb entry exit stmts idx
        let fact1 := match stmts1.get? idx with
          | some s' => Ts s' fact
          | none => fact
        arsLoop rw Ts fuel m1 bb fact1 stmts1 idx

/-- The per-block closure of `analyse_rewrite_forward` (dataflow.rs lines
182-210): swap the block's statements out, run the statement loop, swap
them back, `take().expect(..)` the terminator, apply the terminator
rewriter (a `Graph` result pulls the entry block's statements and
terminator into the current block), and finally run the terminator
transfer function on the block's (possibly new) terminator. -/
def forwardBlockStep (rw : StmtRewriter Stmt L (Mir Stmt Term))
    (rt : TermRewriter Term L (Mir Stmt Term))
    (Ts : Stmt → L → L) (Tt : Term → L → List L) (fuel : Nat)
    (m : Mir Stmt Term) (bb : Nat) (fact : L) :
    Except String (Mir Stmt Term × List L) := do
  let bbb ← getBlk m bb
  let stmts0 := bbb.statements
  let m := updateBlk m bb fun b => { b with statements := [] }
  let (m, stmts, fact) ← arsLoop rw Ts fuel m bb fact stmts0 0
  let m := updateBlk m bb fun b => { b with statements := stmts }
  let bbb2 ← getBlk m bb
  match bbb2.terminator with
  | none => Except.error "invalid terminator state"
  | some term =>
    let m := updateBlk m bb fun b => { b with terminator := none }
    let (tc, m) := rt term fact m
    let m ← match tc with
      | .noChange => pure (updateBlk m bb fun b => { b with terminator := some term })
      | .terminator nt => pure (updateBlk m bb fun b => { b with terminator := some nt })
      | .graph entry _ => do
        let eb ← getBlk m entry
        let es := eb.statements
        let m := updateBlk m entry fun b => { b with statements := [] }
        let m := updateBlk m bb fun b => { b with statements := b.statements ++ es }
        let eb2 ← getBlk m entry
        let t2 := eb2.terminator
        let m := updateBlk m entry fun b => { b with terminator := none }
        pure (updateBlk m bb fun b => { b with terminator := t2 })
    let bbb3 ← getBlk m bb
    match bbb3.terminator with
    | none => Except.error "terminator accessed while absent"
    | some tfin => pure (m, Tt tfin fact)

/-- Modelled from the spec: the pending-queue insert of the `BitVector`
worklist, whose source (rustc_data_structures) is not part of this
repository snapshot.  The spec describes it as a set with deduplicating
insertion and no ordering guarantee; it is modelled as a duplicate-avoiding
list with head pops. -/
def insertQ (q : List Nat) (t : Nat) : List Nat :=
  if t ∈ q then q else q ++ [t]

/-- One propagation of the fixpoint loop (dataflow.rs lines 369-372 and
379-382): `Lattice::join(&mut facts[target], &f)` — the mutable index
auto-extends the store with bottom — and `queue.insert(target)` whenever
the join reports a change. -/
def joinInto (Lo : LatticeOps L) (fs : List L) (q : List Nat) (t : Nat) (f : L) :
    List L × List Nat :=
  ((Facts.ensure Lo fs t).set t (Lo.join ((Facts.ensure Lo fs t).getD t Lo.bot) f).1,
   if (Lo.join ((Facts.ensure Lo fs t).getD t Lo.bot) f).2 then insertQ q t else q)

/-- Folding `joinInto` over a list of (fact, target) pairs, as the
propagation loops of `fixpoint` do. -/
def propagateList (Lo : LatticeOps L) (fs : List L) (q : List Nat)
    (pairs : List (L × Nat)) : List L × List Nat :=
  pairs.foldl (fun acc p => joinInto Lo acc.1 acc.2 p.2 p.1) (fs, q)

/-- The analysis direction (dataflow.rs lines 318-321). -/
inductive Direction : Type where
  | forward : Direction
  | backward : Direction
deriving DecidableEq, Repr

/-- The `fixpoint` worklist engine (dataflow.rs lines 339-388), generic in
the graph type `G`, the successor/predecessor enumerations and the
per-block callback, with an explicit fuel bound because convergence is not
guaranteed for arbitrary lattices.  Each iteration pops a block, obtains
its fact through the auto-extending mutable accessor, invokes the
callback, and then propagates: forward, the returned facts are zipped
positionally with the block's successors after an assertion that the two
lists have equal length; backward, the single returned fact (asserted to
be exactly one) is joined into every predecessor.  Changed targets are
enqueued; the loop ends when the queue is empty. -/
def fixpointF (Lo : LatticeOps L) (dir : Direction)
    (succs preds : G → Nat → List Nat)
    (callback : G → Nat → L → Except String (G × List L)) :
    Nat → G → List Nat → List L → Except String (List L)
  | _, _, [], fs => .ok fs
  | 0, _, _ :: _, _ => .error "fixpoint fuel exhausted"
  | fuel + 1, g, b :: rest, fs =>
    let fs1 := Facts.ensure Lo fs b
    let fact := fs1.getD b Lo.bot
    match callback g b fact with
    | .error e => .error e
    | .ok (g', nf) =>
      match dir with
      | .forward =>
        let ss := succs g' b
        if nf.length = ss.length then
          let pr := propagateList Lo fs1 rest (nf.zip ss)
          fixpointF Lo dir succs preds callback fuel g' pr.2 pr.1
        else .error "list of facts must match the number of successors"
      | .backward =>
        if nf.length = 1 then
          let ps := preds g' b
          let pr := propagateList Lo fs1 rest (ps.map fun p => (nf.headD Lo.bot, p))
          fixpointF Lo dir succs preds callback fuel g' pr.2 pr.1
        else .error "backward fixpoint cannot handle facts of length other than one"

/-- `analyse_rewrite_forward`'s driving of `fixpoint` (dataflow.rs lines
179-182): the queue is seeded with `START_BLOCK` (index 0) and the
direction is forward. -/
def analyseForwardLoop (Lo : LatticeOps L)
    (succs preds : G → Nat → List Nat)
    (callback : G → Nat → L → Except String (G × List L))
    (fuel : Nat) (g : G) (fs : List L) : Except String (List L) :=
  fixpointF Lo .forward succs preds callback fuel g [0] fs

/-- Claim C5: for the top-extended and bottom-extended lattice wrappers,
joining `Top` with anything leaves `Top` unchanged; joining a wrapped value
with `Top` yields `Top` with a change; joining `Bottom` with a wrapped
value adopts it with a change, while `Bottom` with `Bottom` reports no
change; joining a wrapped value with `Bottom` leaves it unchanged; and two
wrapped values join through the inner lattice's join in both wrappers. -/
theorem wtop_wbottom_join_rules {T : Type} (jo : T → T → T × Bool)
    (x : WTop T) (a b : T) (v w : T) :
    WTop.joinW jo .top x = (.top, false) ∧
    WTop.joinW jo (.value a) .top = (.top, true) ∧
    WTop.joinW jo (.value a) (.value b) = (.value (jo a b).1, (jo a b).2) ∧
    WBottom.joinW jo .bottom (.value v) = (.value v, true) ∧
    WBottom.joinW jo (.bottom : WBottom T) .bottom = (.bottom, false) ∧
    WBottom.joinW jo (.value v) .bottom = (.value v, false) ∧
    WBottom.joinW jo (.value v) (.value w) = (.value (jo v w).1, (jo v w).2) := by
  refine ⟨?_, rfl, rfl, rfl, rfl, rfl, rfl⟩
  cases x <;> rfl

/-- Concrete instantiation of the C5 theorem over the Boolean or-lattice. -/
theorem wtop_wbottom_join_rules_witness :
    WTop.joinW (fun a b : Bool => (a || b, !a && b)) .top (.value true) = (.top, false) ∧
    WTop.joinW (fun a b : Bool => (a || b, !a && b)) (.value false) .top = (.top, true) ∧
    WTop.joinW (fun a b : Bool => (a || b, !a && b)) (.value false) (.value true) =
      (.value true, true) ∧
    WBottom.joinW (fun a b : Bool => (a || b, !a && b)) .bottom (.value false) =
      (.value false, true) ∧
    WBottom.joinW (fun a b : Bool => (a || b, !a && b)) (.bottom : WBottom Bool) .bottom =
      (.bottom, false) ∧
    WBottom.joinW (fun a b : Bool => (a || b, !a && b)) (.value false) .bottom =
      (.value false, false) ∧
    WBottom.joinW (fun a b : Bool => (a || b, !a && b)) (.value false) (.value true) =
      (.value true, true) :=
  wtop_wbottom_join_rules (fun a b : Bool => (a || b, !a && b)) (.value true) false true false true

/-- Claim C8: the sequencing combinator runs the second rewriter on the
original node when the first reports no change (so an identity first
rewriter makes the combination behave exactly as the second rewriter
alone); when the first rewriter replaces the node, the second runs on the
replacement, the replacement is kept if the second reports no change and
the second's result wins otherwise; and a deletion by the first rewriter is
final, with the same outcome whatever the second rewriter is. -/
theorem rewrite_and_then_behaviour {Stmt Term L M : Type}
    (r1 r2 : StmtRewriter Stmt L M) (t1 t2 : TermRewriter Term L M)
    (s ns : Stmt) (tm ntm : Term) (l : L) (c c1 c2 : M) :
    (r1 s l c = (.noChange, c1) → rewriteAndThenStmt r1 r2 s l c = some (r2 s l c1)) ∧
    (rewriteAndThenStmt (fun _ _ g => (.noChange, g)) r2 s l c = some (r2 s l c)) ∧
    (r1 s l c = (.stmt ns, c1) → r2 ns l c1 = (.noChange, c2) →
      rewriteAndThenStmt r1 r2 s l c = some (.stmt ns, c2)) ∧
    (r1 s l c = (.stmt ns, c1) → (r2 ns l c1).1 ≠ .noChange →
      rewriteAndThenStmt r1 r2 s l c = some (r2 ns l c1)) ∧
    (r1 s l c = (.remove, c1) →
      ∀ r2a r2b : StmtRewriter Stmt L M,
        rewriteAndThenStmt r1 r2a s l c = some (.remove, c1) ∧
        rewriteAndThenStmt r1 r2a s l c = rewriteAndThenStmt r1 r2b s l c) ∧
    (t1 tm l c = (.noChange, c1) → rewriteAndThenTerm t1 t2 tm l c = some (t2 tm l c1)) ∧
    (t1 tm l c = (.terminator ntm, c1) → t2 ntm l c1 = (.noChange, c2) →
      rewriteAndThenTerm t1 t2 tm l c = some (.terminator ntm, c2)) ∧
    (t1 tm l c = (.terminator ntm, c1) → (t2 ntm l c1).1 ≠ .noChange →
      rewriteAndThenTerm t1 t2 tm l c = some (t2 ntm l c1)) := by
  refine ⟨?_, ?_, ?_, ?_, ?_, ?_, ?_, ?_⟩
  · intro h; simp [rewriteAndThenStmt, h]
  · simp [rewriteAndThenStmt]
  · intro h1 h2; simp [rewriteAndThenStmt, h1, h2]
  · intro h1 h2
    simp only [rewriteAndThenStmt, h1]
    rcases hr : r2 ns l c1 with ⟨ch, g⟩
    cases ch
    · exact absurd (by simp [hr]) h2
    · rfl
    · rfl
    · rfl
  · intro h r2a r2b
    constructor
    · simp [rewriteAndThenStmt, h]
    · simp [rewriteAndThenStmt, h]
  · intro h; simp [rewriteAndThenTerm, h]
  · intro h1 h2; simp [rewriteAndThenTerm, h1, h2]
  · intro h1 h2
    simp only [rewriteAndThenTerm, h1]
    rcases hr : t2 ntm l c1 with ⟨ch, g⟩
    cases ch
    · exact absurd (by simp [hr]) h2
    · rfl
    · rfl

/-- Concrete instantiation of the C8 theorem: a deleting first rewriter
makes the combination return the deletion whatever the second rewriter
does. -/
theorem rewrite_and_then_behaviour_witness :
    rewriteAndThenStmt (fun _ _ g => (.remove, g)) (fun s _ g => (.stmt s, g))
      (5 : Nat) (0 : Nat) (7 : Nat) = some (.remove, 7) :=
  ((@rewrite_and_then_behaviour Nat Nat Nat Nat
      (fun _ _ g => (.remove, g)) (fun s _ g => (.stmt s, g))
      (fun _ _ g => (.noChange, g)) (fun _ _ g => (.noChange, g))
      5 5 0 0 0 7 7 7).2.2.2.2.1 rfl
    (fun s _ g => (.stmt s, g)) (fun s _ g => (.stmt s, g))).1

/-- Claim C7: the read-only accessor of the fact store fails (panics,
modelled by `none`) at any index at or beyond the store's length instead of
returning bottom; at an in-range index it reads the slot and the mutable
accessor leaves the store untouched; at an out-of-range index the mutable
accessor first grows the store with `bottom()` for every slot up to and
including that index (so the store's new length is exactly the index plus
one, old slots are preserved and every new slot holds bottom), after which
the slot it returns exists. -/
theorem facts_store_access (Lo : LatticeOps L) (fs : List L) (i : Nat) :
    (fs.length ≤ i → Facts.index? fs i = none) ∧
    (i < fs.length → Facts.index? fs i = fs.get? i ∧ Facts.ensure Lo fs i = fs) ∧
    (fs.length ≤ i →
      (Facts.ensure Lo fs i).length = i + 1 ∧
      (∀ j, j < fs.length → (Facts.ensure Lo fs i).get? j = fs.get? j) ∧
      (∀ j, fs.length ≤ j → j ≤ i → (Facts.ensure Lo fs i).get? j = some Lo.bot)) := by
  refine ⟨fun h => List.get?_eq_none.2 h, fun h => ⟨rfl, by simp [Facts.ensure, h]⟩, fun h => ?_⟩
  have hnl : ¬ i < fs.length := not_lt.2 h
  refine ⟨?_, fun j hj => ?_, fun j hj1 hj2 => ?_⟩
  · simp only [Facts.ensure, hnl, if_false, List.length_append, List.length_replicate]
    omega
  · simp only [Facts.ensure, hnl, if_false]
    exact List.get?_append hj
  · simp only [Facts.ensure, hnl, if_false]
    rw [List.get?_append_right hj1]
    have hlt : j - fs.length < i + 1 - fs.length := by omega
    simp [List.getElem?_replicate, hlt]

/-- Concrete instantiation of the C7 theorem on a one-slot store read and
grown at index 3. -/
theorem facts_store_access_witness :
    Facts.index? ([true] : List Bool) 3 = none ∧
    (Facts.ensure ⟨false, fun a b => (a || b, !a && b)⟩ [true] 3).length = 4 ∧
    (Facts.ensure ⟨false, fun a b => (a || b, !a && b)⟩ [true] 3).get? 0 = some true ∧
    (Facts.ensure ⟨false, fun a b => (a || b, !a && b)⟩ [true] 3).get? 2 = some false := by
  obtain ⟨h1, _, h3⟩ :=
    facts_store_access (⟨false, fun a b => (a || b, !a && b)⟩ : LatticeOps Bool) [true] 3
  exact ⟨h1 (by decide), (h3 (by decide)).1,
    by rw [(h3 (by decide)).2.1 0 (by decide)]; rfl,
    (h3 (by decide)).2.2 2 (by decide) (by decide)⟩

section MapJoinLemmas

variable {K V : Type} [DecidableEq K]

theorem mapLookup_append_of_none (k : K) (l1 l2 : List (K × V))
    (h : mapLookup k l1 = none) : mapLookup k (l1 ++ l2) = mapLookup k l2 := by
  induction l1 with
  | nil => rfl
  | cons p rest ih =>
    rcases p with ⟨k', v'⟩
    simp only [mapLookup] at h
    by_cases hk : k' = k
    · simp [hk] at h
    · simp only [hk, if_false] at h
      simpa only [List.cons_append, mapLookup, hk, if_false] using ih h

theorem mapLookup_append_of_some (k : K) (l1 l2 : List (K × V)) (v : V)
    (h : mapLookup k l1 = some v) : mapLookup k (l1 ++ l2) = some v := by
  induction l1 with
  | nil => simp [mapLookup] at h
  | cons p rest ih =>
    rcases p with ⟨k', v'⟩
    by_cases hk : k' = k
    · simp only [mapLookup, hk, if_true] at h ⊢
      simpa [mapLookup, hk] using h
    · simp only [mapLookup, hk, if_false] at h ⊢
      simpa [mapLookup, hk] using ih h

theorem mapLookup_replace_ne (k k' : K) (v : V) (l : List (K × V)) (h : k' ≠ k) :
    mapLookup k' (mapReplace k v l) = mapLookup k' l := by
  induction l with
  | nil => rfl
  | cons p rest ih =>
    rcases p with ⟨k0, w⟩
    by_cases hk : k0 = k
    · have hne : ¬ (k0 = k') := fun hh => h (hh ▸ hk)
      simp only [mapReplace, if_pos hk, mapLookup, hne, if_false]
    · simp [mapReplace, hk, mapLookup, ih]

theorem mapLookup_replace_self (k : K) (v w : V) (l : List (K × V))
    (h : mapLookup k l = some w) : mapLookup k (mapReplace k v l) = some v := by
  induction l with
  | nil => simp [mapLookup] at h
  | cons p rest ih =>
    rcases p with ⟨k0, w0⟩
    by_cases hk : k0 = k
    · simp [mapReplace, mapLookup, hk]
    · simp only [mapLookup, hk, if_false] at h
      simp [mapReplace, mapLookup, hk, ih h]

theorem mapReplace_cancel (k : K) (v : V) (l : List (K × V))
    (h : mapLookup k l = some v) : mapReplace k v l = l := by
  induction l with
  | nil => rfl
  | cons p rest ih =>
    rcases p with ⟨k0, w0⟩
    by_cases hk : k0 = k
    · simp only [mapLookup, hk, if_true, Option.some.injEq] at h
      simp [mapReplace, hk, h]
    · simp only [mapLookup, hk, if_false] at h
      simp [mapReplace, hk, ih h]

theorem mapLookup_of_mem_nodup (k : K) (v : V) (l : List (K × V))
    (hnd : (l.map Prod.fst).Nodup) (hin : (k, v) ∈ l) :
    mapLookup k l = some v := by
  induction l with
  | nil => simp at hin
  | cons p rest ih =>
    rcases p with ⟨k0, w0⟩
    rcases List.mem_cons.1 hin with heq | hmem
    · cases heq
      simp [mapLookup]
    · rw [List.map_cons] at hnd
      have hk : k0 ≠ k := by
        intro hh
        subst hh
        exact (List.nodup_cons.1 hnd).1 (List.mem_map.2 ⟨(k0, v), hmem, rfl⟩)
      simp only [mapLookup, hk, if_false]
      exact ih (List.nodup_cons.1 hnd).2 hmem

theorem mapLookup_mem_of_some (k : K) (v : V) (l : List (K × V))
    (h : mapLookup k l = some v) : (k, v) ∈ l := by
  induction l with
  | nil => simp [mapLookup] at h
  | cons p rest ih =>
    rcases p with ⟨k0, w0⟩
    by_cases hk : k0 = k
    · subst hk
      simp only [mapLookup, if_true] at h
      cases h
      exact List.mem_cons_self _ _
    · simp only [mapLookup, hk, if_false] at h
      exact List.mem_cons_of_mem _ (ih h)

theorem mapJoinStep_lookup_ne (jo : V → V → V × Bool) (k : K)
    (acc : List (K × V) × Bool) (p : K × V) (h : p.1 ≠ k) :
    mapLookup k (mapJoinStep jo acc p).1 = mapLookup k acc.1 := by
  rcases hl : mapLookup p.1 acc.1 with _ | w
  · simp only [mapJoinStep, hl]
    rcases hk : mapLookup k acc.1 with _ | v
    · rw [mapLookup_append_of_none k _ _ hk]
      simp [mapLookup, h, hk]
    · simpa [hk] using mapLookup_append_of_some k acc.1 [p] v hk
  · simp only [mapJoinStep, hl]
    exact mapLookup_replace_ne p.1 k _ acc.1 (fun hh => h hh.symm)

theorem mapJoinFold_lookup_notin (jo : V → V → V × Bool) (k : K)
    (l : List (K × V)) (acc : List (K × V) × Bool) (h : k ∉ l.map Prod.fst) :
    mapLookup k (l.foldl (mapJoinStep jo) acc).1 = mapLookup k acc.1 := by
  induction l generalizing acc with
  | nil => rfl
  | cons p rest ih =>
    simp only [List.map_cons, List.mem_cons, not_or] at h
    rw [List.foldl_cons, ih _ h.2, mapJoinStep_lookup_ne jo k acc p (fun hh => h.1 hh.symm)]

theorem mapJoinFold_flag_mono (jo : V → V → V × Bool)
    (l : List (K × V)) (acc : List (K × V) × Bool) (h : acc.2 = true) :
    (l.foldl (mapJoinStep jo) acc).2 = true := by
  induction l generalizing acc with
  | nil => exact h
  | cons p rest ih =>
    rw [List.foldl_cons]
    apply ih
    rcases hl : mapLookup p.1 acc.1 with _ | w
    · simp [mapJoinStep, hl]
    · simp [mapJoinStep, hl, h]

theorem mapJoinFold_key_spec (jo : V → V → V × Bool) (k : K) (v : V)
    (l : List (K × V)) (hnd : (l.map Prod.fst).Nodup) (hin : (k, v) ∈ l)
    (acc : List (K × V) × Bool) :
    (mapLookup k acc.1 = none →
      mapLookup k (l.foldl (mapJoinStep jo) acc).1 = some v ∧
      (l.foldl (mapJoinStep jo) acc).2 = true) ∧
    (∀ w, mapLookup k acc.1 = some w →
      mapLookup k (l.foldl (mapJoinStep jo) acc).1 = some (jo w v).1) := by
  induction l generalizing acc with
  | nil => simp at hin
  | cons p rest ih =>
    have hnd' : (rest.map Prod.fst).Nodup := (List.nodup_cons.1 (by simpa using hnd)).2
    have hhd : p.1 ∉ rest.map Prod.fst := (List.nodup_cons.1 (by simpa using hnd)).1
    by_cases hk : p.1 = k
    · have hp : p = (k, v) := by
        rcases List.mem_cons.1 hin with heq | hmem
        · exact heq.symm
        · exact absurd (hk ▸ List.mem_map_of_mem Prod.fst hmem) hhd
      subst hp
      have hk' : k ∉ rest.map Prod.fst := hhd
      constructor
      · intro hnone
        rw [List.foldl_cons]
        have hstep : mapJoinStep jo acc (k, v) = (acc.1 ++ [(k, v)], true) := by
          simp [mapJoinStep, hnone]
        rw [hstep]
        refine ⟨?_, mapJoinFold_flag_mono jo rest _ rfl⟩
        rw [mapJoinFold_lookup_notin jo k rest _ hk']
        rw [mapLookup_append_of_none k _ _ hnone]
        simp [mapLookup]
      · intro w hsome
        rw [List.foldl_cons]
        have hstep : mapJoinStep jo acc (k, v) =
            (mapReplace k (jo w v).1 acc.1, acc.2 || (jo w v).2) := by
          simp [mapJoinStep, hsome]
        rw [hstep]
        rw [mapJoinFold_lookup_notin jo k rest _ hk']
        exact mapLookup_replace_self k _ w acc.1 hsome
    · have hmem : (k, v) ∈ rest := by
        rcases List.mem_cons.1 hin with heq | hmem
        · exact absurd (by rw [← heq]) hk
        · exact hmem
      have hpres := mapJoinStep_lookup_ne jo k acc p hk
      constructor
      · intro hnone
        rw [List.foldl_cons]
        refine (ih hnd' hmem _).1 ?_
        rw [hpres, hnone]
      · intro w hsome
        rw [List.foldl_cons]
        refine (ih hnd' hmem _).2 w ?_
        rw [hpres, hsome]

theorem mapJoinFold_fixed (jo : V → V → V × Bool)
    (l : List (K × V)) (m : List (K × V)) (b : Bool)
    (h : ∀ kv ∈ l, mapLookup kv.1 m = some kv.2 ∧ (jo kv.2 kv.2) = (kv.2, false)) :
    l.foldl (mapJoinStep jo) (m, b) = (m, b) := by
  induction l with
  | nil => rfl
  | cons p rest ih =>
    obtain ⟨hlk, hjo⟩ := h p (List.mem_cons_self _ _)
    rw [List.foldl_cons]
    have hstep : mapJoinStep jo (m, b) p = (m, b) := by
      simp only [mapJoinStep, hlk, hjo]
      rw [mapReplace_cancel p.1 p.2 m hlk]
      simp
    rw [hstep]
    exact ih (fun kv hkv => h kv (List.mem_cons_of_mem _ hkv))

end MapJoinLemmas

/-- Claim C6: after the key-mapping join, the result contains every key
present in either mapping; a key present only in the other mapping is
inserted with its value and the join reports a change; a key present in
both ends up mapped to the inner-lattice join of the two values; and a
mapping joined with itself is returned unchanged with no change reported,
provided the inner join is idempotent as the lattice laws require. -/
theorem hashmap_join_spec {K V : Type} [DecidableEq K] (jo : V → V → V × Bool)
    (self other : List (K × V))
    (hself : (self.map Prod.fst).Nodup) (hother : (other.map Prod.fst).Nodup) :
    (∀ k, ((mapLookup k self).isSome ∨ (mapLookup k other).isSome) →
      (mapLookup k (mapJoin jo self other).1).isSome) ∧
    (∀ k v, mapLookup k self = none → mapLookup k other = some v →
      mapLookup k (mapJoin jo self other).1 = some v ∧ (mapJoin jo self other).2 = true) ∧
    (∀ k w v, mapLookup k self = some w → mapLookup k other = some v →
      mapLookup k (mapJoin jo self other).1 = some (jo w v).1) ∧
    ((∀ x, jo x x = (x, false)) → mapJoin jo self self = (self, false)) := by
  refine ⟨fun k hk => ?_, fun k v hn hs => ?_, fun k w v hw hv => ?_, fun hidem => ?_⟩
  · rcases hs : mapLookup k self with _ | w
    · rcases ho : mapLookup k other with _ | v
      · rcases hk with hk | hk
        · rw [hs] at hk; simp at hk
        · rw [ho] at hk; simp at hk
      · have hm := mapLookup_mem_of_some k v other ho
        unfold mapJoin
        rw [(mapJoinFold_key_spec jo k v other hother hm (self, false)).1 hs |>.1]
        rfl
    · rcases ho : mapLookup k other with _ | v
      · have hnotin : k ∉ other.map Prod.fst := by
          intro hin
          rcases List.mem_map.1 hin with ⟨⟨k1, v1⟩, hmem, hfst⟩
          cases hfst
          rw [mapLookup_of_mem_nodup _ v1 other hother hmem] at ho
          exact Option.noConfusion ho
        unfold mapJoin
        rw [mapJoinFold_lookup_notin jo k other (self, false) hnotin]
        simp [hs]
      · have hm := mapLookup_mem_of_some k v other ho
        unfold mapJoin
        rw [(mapJoinFold_key_spec jo k v other hother hm (self, false)).2 w hs]
        rfl
  · have hm := mapLookup_mem_of_some k v other hs
    exact (mapJoinFold_key_spec jo k v other hother hm (self, false)).1 hn
  · have hm := mapLookup_mem_of_some k v other hv
    exact (mapJoinFold_key_spec jo k v other hother hm (self, false)).2 w hw
  · unfold mapJoin
    exact mapJoinFold_fixed jo self self false
      (fun kv hkv => ⟨mapLookup_of_mem_nodup kv.1 kv.2 self hself
        (by rcases kv with ⟨a, b⟩; exact hkv), hidem kv.2⟩)

/-- Concrete instantiation of the C6 theorem over a two-key mapping with
the max join on natural numbers. -/
theorem hashmap_join_spec_witness :
    (mapLookup 2 (mapJoin (fun a b : Nat => (max a b, decide (a < b)))
      [(1, 5)] [(1, 3), (2, 4)]).1).isSome ∧
    mapLookup 2 (mapJoin (fun a b : Nat => (max a b, decide (a < b)))
      [(1, 5)] [(1, 3), (2, 4)]).1 = some 4 ∧
    (mapJoin (fun a b : Nat => (max a b, decide (a < b))) [(1, 5)] [(1, 3), (2, 4)]).2 = true ∧
    mapLookup 1 (mapJoin (fun a b : Nat => (max a b, decide (a < b)))
      [(1, 5)] [(1, 3), (2, 4)]).1 = some 5 ∧
    mapJoin (fun a b : Nat => (max a b, decide (a < b))) [(1, 5)] [(1, 5)] = ([(1, 5)], false) := by
  obtain ⟨h1, h2, h3, h4⟩ := hashmap_join_spec (fun a b : Nat => (max a b, decide (a < b)))
    [(1, 5)] [(1, 3), (2, 4)] (by decide) (by decide)
  obtain ⟨_, _, _, h4'⟩ := hashmap_join_spec (fun a b : Nat => (max a b, decide (a < b)))
    [(1, 5)] [(1, 5)] (by decide) (by decide)
  refine ⟨h1 2 (Or.inr (by decide)), (h2 2 4 (by decide) (by decide)).1,
    (h2 2 4 (by decide) (by decide)).2, ?_, h4' ?_⟩
  · have := h3 1 5 3 (by decide) (by decide)
    simpa using this
  · intro x
    simp [Nat.max_self]

section PropagateLemmas

variable {L : Type}

theorem mem_insertQ (q : List Nat) (t a : Nat) : a ∈ insertQ q t ↔ a ∈ q ∨ a = t := by
  unfold insertQ
  split
  · rename_i h
    constructor
    · exact Or.inl
    · rintro (ha | rfl)
      · exact ha
      · exact h
  · simp

theorem insertQ_length_le (q : List Nat) (t : Nat) :
    (insertQ q t).length ≤ q.length + 1 := by
  unfold insertQ
  split
  · exact Nat.le_succ _
  · simp

theorem ensure_length_ge (Lo : LatticeOps L) (fs : List L) (i : Nat) :
    fs.length ≤ (Facts.ensure Lo fs i).length := by
  unfold Facts.ensure
  split
  · exact le_rfl
  · simp

theorem ensure_length_gt (Lo : LatticeOps L) (fs : List L) (i : Nat) :
    i < (Facts.ensure Lo fs i).length := by
  unfold Facts.ensure
  split
  · assumption
  · rename_i h
    simp only [List.length_append, List.length_replicate]
    omega

theorem ensure_getD (Lo : LatticeOps L) (fs : List L) (i j : Nat) :
    (Facts.ensure Lo fs i).getD j Lo.bot = fs.getD j Lo.bot := by
  unfold Facts.ensure
  split
  · rfl
  · by_cases hj : j < fs.length
    · rw [List.getD_append _ _ _ _ hj]
    · rw [List.getD_append_right _ _ _ _ (not_lt.1 hj),
        List.getD_eq_default _ _ (not_lt.1 hj)]
      by_cases hj2 : j - fs.length < i + 1 - fs.length
      · rw [List.getD_eq_getElem _ _ (by simpa using hj2)]
        simp
      · rw [List.getD_eq_default _ _ (by simpa using not_lt.1 hj2)]

theorem ensure_get?_lt (Lo : LatticeOps L) (fs : List L) (i j : Nat)
    (hj : j < fs.length) : (Facts.ensure Lo fs i).get? j = fs.get? j := by
  unfold Facts.ensure
  split
  · rfl
  · exact List.get?_append hj

theorem getD_set_self (l : List L) (i : Nat) (v d : L) (h : i < l.length) :
    (l.set i v).getD i d = v := by
  rw [List.getD_eq_getD_get?, List.get?_set_eq_of_lt _ h]
  rfl

theorem getD_set_ne (l : List L) (i j : Nat) (v d : L) (h : i ≠ j) :
    (l.set i v).getD j d = l.getD j d := by
  rw [List.getD_eq_getD_get?, List.getD_eq_getD_get?, List.get?_set_ne _ _ h]

theorem joinInto_getD_self (Lo : LatticeOps L) (fs : List L) (q : List Nat)
    (t : Nat) (f : L) :
    (joinInto Lo fs q t f).1.getD t Lo.bot = (Lo.join (fs.getD t Lo.bot) f).1 := by
  unfold joinInto
  rw [getD_set_self _ _ _ _ (ensure_length_gt Lo fs t), ensure_getD]

theorem joinInto_getD_ne (Lo : LatticeOps L) (fs : List L) (q : List Nat)
    (t : Nat) (f : L) (j : Nat) (h : t ≠ j) :
    (joinInto Lo fs q t f).1.getD j Lo.bot = fs.getD j Lo.bot := by
  unfold joinInto
  rw [getD_set_ne _ _ _ _ _ h, ensure_getD]

theorem joinInto_mem_self (Lo : LatticeOps L) (fs : List L) (q : List Nat)
    (t : Nat) (f : L) :
    t ∈ (joinInto Lo fs q t f).2 ↔
      t ∈ q ∨ (Lo.join (fs.getD t Lo.bot) f).2 = true := by
  unfold joinInto
  rw [ensure_getD]
  rcases hch : (Lo.join (fs.getD t Lo.bot) f).2 with _ | _
  · simp [hch]
  · simp [hch, mem_insertQ]

theorem joinInto_mem_ne (Lo : LatticeOps L) (fs : List L) (q : List Nat)
    (t : Nat) (f : L) (a : Nat) (h : a ≠ t) :
    (a ∈ (joinInto Lo fs q t f).2 ↔ a ∈ q) := by
  unfold joinInto
  split
  · rw [mem_insertQ]
    exact ⟨fun hh => hh.resolve_right h, Or.inl⟩
  · exact Iff.rfl

theorem joinInto_get?_lt (Lo : LatticeOps L) (fs : List L) (q : List Nat)
    (t : Nat) (f : L) (j : Nat) (hj : j < fs.length) (h : t ≠ j) :
    (joinInto Lo fs q t f).1.get? j = fs.get? j := by
  unfold joinInto
  rw [List.get?_set_ne _ _ h, ensure_get?_lt _ _ _ _ hj]

theorem joinInto_length_ge (Lo : LatticeOps L) (fs : List L) (q : List Nat)
    (t : Nat) (f : L) : fs.length ≤ (joinInto Lo fs q t f).1.length := by
  unfold joinInto
  rw [List.length_set]
  exact ensure_length_ge Lo fs t

theorem propagateList_getD_notin (Lo : LatticeOps L) (pairs : List (L × Nat))
    (fs : List L) (q : List Nat) (j : Nat) (h : j ∉ pairs.map Prod.snd) :
    (propagateList Lo fs q pairs).1.getD j Lo.bot = fs.getD j Lo.bot ∧
    (j ∈ (propagateList Lo fs q pairs).2 ↔ j ∈ q) := by
  induction pairs generalizing fs q with
  | nil => exact ⟨rfl, Iff.rfl⟩
  | cons p rest ih =>
    simp only [List.map_cons, List.mem_cons, not_or] at h
    have hstep := ih (joinInto Lo fs q p.2 p.1).1 (joinInto Lo fs q p.2 p.1).2 h.2
    unfold propagateList at hstep ⊢
    rw [List.foldl_cons]
    refine ⟨?_, ?_⟩
    · rw [hstep.1, joinInto_getD_ne Lo fs q p.2 p.1 j (fun hh => h.1 hh.symm)]
    · rw [hstep.2, joinInto_mem_ne Lo fs q p.2 p.1 j h.1]

theorem propagateList_spec (Lo : LatticeOps L) (pairs : List (L × Nat))
    (fs : List L) (q : List Nat) (hnd : (pairs.map Prod.snd).Nodup) :
    ∀ p ∈ pairs,
      (propagateList Lo fs q pairs).1.getD p.2 Lo.bot =
        (Lo.join (fs.getD p.2 Lo.bot) p.1).1 ∧
      (p.2 ∈ (propagateList Lo fs q pairs).2 ↔
        p.2 ∈ q ∨ (Lo.join (fs.getD p.2 Lo.bot) p.1).2 = true) := by
  induction pairs generalizing fs q with
  | nil => intro p hp; simp at hp
  | cons p0 rest ih =>
    intro p hp
    rw [List.map_cons] at hnd
    have hhd : p0.2 ∉ rest.map Prod.snd := (List.nodup_cons.1 hnd).1
    have hnd' : (rest.map Prod.snd).Nodup := (List.nodup_cons.1 hnd).2
    rcases List.mem_cons.1 hp with rfl | hmem
    · have hnotin := propagateList_getD_notin Lo rest
        (joinInto Lo fs q p.2 p.1).1 (joinInto Lo fs q p.2 p.1).2 p.2 hhd
      unfold propagateList at hnotin ⊢
      rw [List.foldl_cons]
      refine ⟨?_, ?_⟩
      · rw [hnotin.1, joinInto_getD_self]
      · rw [hnotin.2, joinInto_mem_self]
    · have hne : p0.2 ≠ p.2 := by
        intro hh
        exact hhd (hh ▸ List.mem_map.2 ⟨p, hmem, rfl⟩)
      have hih := ih (joinInto Lo fs q p0.2 p0.1).1 (joinInto Lo fs q p0.2 p0.1).2 hnd' p hmem
      unfold propagateList at hih ⊢
      rw [List.foldl_cons]
      refine ⟨?_, ?_⟩
      · rw [hih.1, joinInto_getD_ne Lo fs q p0.2 p0.1 p.2 hne]
      · rw [hih.2, joinInto_mem_ne Lo fs q p0.2 p0.1 p.2 (fun hh => hne hh.symm),
          joinInto_getD_ne Lo fs q p0.2 p0.1 p.2 hne]

theorem propagateList_get?_lt (Lo : LatticeOps L) (pairs : List (L × Nat))
    (fs : List L) (q : List Nat) (j : Nat) (hj : j < fs.length)
    (h : j ∉ pairs.map Prod.snd) :
    (propagateList Lo fs q pairs).1.get? j = fs.get? j := by
  induction pairs generalizing fs q with
  | nil => rfl
  | cons p rest ih =>
    simp only [List.map_cons, List.mem_cons, not_or] at h
    unfold propagateList
    rw [List.foldl_cons]
    have hlen : j < (joinInto Lo fs q p.2 p.1).1.length :=
      lt_of_lt_of_le hj (joinInto_length_ge Lo fs q p.2 p.1)
    have := ih (joinInto Lo fs q p.2 p.1).1 (joinInto Lo fs q p.2 p.1).2 hlen h.2
    unfold propagateList at this
    rw [this, joinInto_get?_lt Lo fs q p.2 p.1 j hj (fun hh => h.1 hh.symm)]

theorem propagateList_length_ge (Lo : LatticeOps L) (pairs : List (L × Nat))
    (fs : List L) (q : List Nat) :
    fs.length ≤ (propagateList Lo fs q pairs).1.length := by
  induction pairs generalizing fs q with
  | nil => exact le_rfl
  | cons p rest ih =>
    unfold propagateList
    rw [List.foldl_cons]
    exact le_trans (joinInto_length_ge Lo fs q p.2 p.1)
      (ih (joinInto Lo fs q p.2 p.1).1 (joinInto Lo fs q p.2 p.1).2)

end PropagateLemmas

/-- The total remaining ascent headroom of the first `N` fact slots, the
decreasing part of the termination measure for the worklist. -/
def factsMeasure (Lo : LatticeOps L) (hm : L → Nat) (N : Nat) (fs : List L) : Nat :=
  Finset.sum (Finset.range N) fun i => hm (fs.getD i Lo.bot)

section MeasureLemmas

variable {L : Type}

theorem factsMeasure_ensure (Lo : LatticeOps L) (hm : L → Nat) (N : Nat)
    (fs : List L) (b : Nat) :
    factsMeasure Lo hm N (Facts.ensure Lo fs b) = factsMeasure Lo hm N fs := by
  unfold factsMeasure
  exact Finset.sum_congr rfl fun i _ => by rw [ensure_getD]

theorem factsMeasure_set (Lo : LatticeOps L) (hm : L → Nat) (N : Nat)
    (fs : List L) (t : Nat) (v : L) (htN : t < N) :
    factsMeasure Lo hm N ((Facts.ensure Lo fs t).set t v) + hm (fs.getD t Lo.bot) =
      factsMeasure Lo hm N fs + hm v := by
  have ht : t ∈ Finset.range N := Finset.mem_range.2 htN
  have hself : ((Facts.ensure Lo fs t).set t v).getD t Lo.bot = v :=
    getD_set_self _ _ _ _ (ensure_length_gt Lo fs t)
  have herase : ∀ i ∈ (Finset.range N).erase t,
      hm (((Facts.ensure Lo fs t).set t v).getD i Lo.bot) = hm (fs.getD i Lo.bot) := by
    intro i hi
    rw [getD_set_ne _ _ _ _ _ (Finset.ne_of_mem_erase hi).symm, ensure_getD]
  have h1 : factsMeasure Lo hm N ((Facts.ensure Lo fs t).set t v) =
      hm v + Finset.sum ((Finset.range N).erase t) fun i => hm (fs.getD i Lo.bot) := by
    unfold factsMeasure
    rw [← Finset.add_sum_erase _ _ ht, hself]
    exact congrArg (hm v + ·) (Finset.sum_congr rfl herase)
  have h2 : factsMeasure Lo hm N fs =
      hm (fs.getD t Lo.bot) +
        Finset.sum ((Finset.range N).erase t) fun i => hm (fs.getD i Lo.bot) := by
    unfold factsMeasure
    rw [← Finset.add_sum_erase _ _ ht]
  omega

theorem joinInto_measure (Lo : LatticeOps L) (hm : L → Nat)
    (Hdec : ∀ a x, (Lo.join a x).2 = true → hm (Lo.join a x).1 < hm a)
    (Hsame : ∀ a x, (Lo.join a x).2 = false → (Lo.join a x).1 = a)
    (N : Nat) (fs : List L) (q : List Nat) (t : Nat) (f : L) (htN : t < N) :
    factsMeasure Lo hm N (joinInto Lo fs q t f).1 + (joinInto Lo fs q t f).2.length ≤
      factsMeasure Lo hm N fs + q.length := by
  unfold joinInto
  dsimp only
  rw [ensure_getD]
  by_cases hch : (Lo.join (fs.getD t Lo.bot) f).2 = true
  · have hv := Hdec (fs.getD t Lo.bot) f hch
    have heq := factsMeasure_set Lo hm N fs t (Lo.join (fs.getD t Lo.bot) f).1 htN
    have hq := insertQ_length_le q t
    rw [if_pos hch]
    omega
  · have hch' : (Lo.join (fs.getD t Lo.bot) f).2 = false := by
      revert hch
      cases (Lo.join (fs.getD t Lo.bot) f).2 <;> simp
    have hv := Hsame (fs.getD t Lo.bot) f hch'
    have heq := factsMeasure_set Lo hm N fs t (Lo.join (fs.getD t Lo.bot) f).1 htN
    rw [hv] at heq ⊢
    rw [if_neg hch]
    omega

theorem propagateList_measure (Lo : LatticeOps L) (hm : L → Nat)
    (Hdec : ∀ a x, (Lo.join a x).2 = true → hm (Lo.join a x).1 < hm a)
    (Hsame : ∀ a x, (Lo.join a x).2 = false → (Lo.join a x).1 = a)
    (N : Nat) (pairs : List (L × Nat)) (fs : List L) (q : List Nat)
    (htN : ∀ p ∈ pairs, p.2 < N) :
    factsMeasure Lo hm N (propagateList Lo fs q pairs).1 +
        (propagateList Lo fs q pairs).2.length ≤
      factsMeasure Lo hm N fs + q.length := by
  induction pairs generalizing fs q with
  | nil => exact le_rfl
  | cons p rest ih =>
    unfold propagateList
    rw [List.foldl_cons]
    have hstep := joinInto_measure Lo hm Hdec Hsame N fs q p.2 p.1
      (htN p (List.mem_cons_self _ _))
    have hrest := ih (joinInto Lo fs q p.2 p.1).1 (joinInto Lo fs q p.2 p.1).2
      (fun p' hp' => htN p' (List.mem_cons_of_mem _ hp'))
    exact le_trans hrest hstep

end MeasureLemmas

theorem zip_getD_mem {α β : Type} (a : List α) (b : List β) (i : Nat)
    (ha : i < a.length) (hb : i < b.length) (da : α) (db : β) :
    (a.getD i da, b.getD i db) ∈ a.zip b := by
  have h1 : a.get? i = some (a.getD i da) := by
    rw [List.getD_eq_getD_get?, List.get?_eq_get ha]
    rfl
  have h2 : b.get? i = some (b.getD i db) := by
    rw [List.getD_eq_getD_get?, List.get?_eq_get hb]
    rfl
  exact List.get?_mem ((List.get?_zip_eq_some a b _ i).2 ⟨h1, h2⟩)

/-- Claim C2: in the fixpoint loop, after the per-block callback returns,
the forward direction asserts that the number of returned facts equals the
number of successors of the processed block (a mismatch is a fatal error),
zips the facts positionally against those successors, joins each fact into
its successor's fact-store slot and enqueues exactly the successors whose
join reported a change; the backward direction asserts that exactly one
fact was returned (anything else is a fatal error) and joins that single
fact into every predecessor's slot, enqueueing the changed ones. -/
theorem fixpoint_step_propagation {G L : Type} (Lo : LatticeOps L)
    (succs preds : G → Nat → List Nat)
    (callback : G → Nat → L → Except String (G × List L))
    (fuel b : Nat) (rest : List Nat) (g g' : G) (fs nf : List L)
    (hcb : callback g b ((Facts.ensure Lo fs b).getD b Lo.bot) = .ok (g', nf)) :
    (nf.length ≠ (succs g' b).length →
      fixpointF Lo .forward succs preds callback (fuel + 1) g (b :: rest) fs =
        .error "list of facts must match the number of successors") ∧
    (nf.length = (succs g' b).length →
      fixpointF Lo .forward succs preds callback (fuel + 1) g (b :: rest) fs =
        fixpointF Lo .forward succs preds callback fuel g'
          (propagateList Lo (Facts.ensure Lo fs b) rest (nf.zip (succs g' b))).2
          (propagateList Lo (Facts.ensure Lo fs b) rest (nf.zip (succs g' b))).1 ∧
      ((succs g' b).Nodup → ∀ i, i < (succs g' b).length →
        (propagateList Lo (Facts.ensure Lo fs b) rest
            (nf.zip (succs g' b))).1.getD ((succs g' b).getD i 0) Lo.bot =
          (Lo.join ((Facts.ensure Lo fs b).getD ((succs g' b).getD i 0) Lo.bot)
            (nf.getD i Lo.bot)).1 ∧
        ((succs g' b).getD i 0 ∈ (propagateList Lo (Facts.ensure Lo fs b) rest
            (nf.zip (succs g' b))).2 ↔
          (succs g' b).getD i 0 ∈ rest ∨
          (Lo.join ((Facts.ensure Lo fs b).getD ((succs g' b).getD i 0) Lo.bot)
            (nf.getD i Lo.bot)).2 = true))) ∧
    (nf.length ≠ 1 →
      fixpointF Lo .backward succs preds callback (fuel + 1) g (b :: rest) fs =
        .error "backward fixpoint cannot handle facts of length other than one") ∧
    (∀ f0, nf = [f0] →
      fixpointF Lo .backward succs preds callback (fuel + 1) g (b :: rest) fs =
        fixpointF Lo .backward succs preds callback fuel g'
          (propagateList Lo (Facts.ensure Lo fs b) rest
            ((preds g' b).map fun p => (f0, p))).2
          (propagateList Lo (Facts.ensure Lo fs b) rest
            ((preds g' b).map fun p => (f0, p))).1 ∧
      ((preds g' b).Nodup → ∀ p ∈ preds g' b,
        (propagateList Lo (Facts.ensure Lo fs b) rest
            ((preds g' b).map fun q => (f0, q))).1.getD p Lo.bot =
          (Lo.join ((Facts.ensure Lo fs b).getD p Lo.bot) f0).1 ∧
        (p ∈ (propagateList Lo (Facts.ensure Lo fs b) rest
            ((preds g' b).map fun q => (f0, q))).2 ↔
          p ∈ rest ∨
          (Lo.join ((Facts.ensure Lo fs b).getD p Lo.bot) f0).2 = true))) := by
  refine ⟨fun hne => ?_, fun heq => ⟨?_, fun hnd i hi => ?_⟩,
    fun hne => ?_, fun f0 hf0 => ⟨?_, fun hnd p hp => ?_⟩⟩
  · simp only [fixpointF, hcb]
    rw [if_neg hne]
  · simp only [fixpointF, hcb]
    rw [if_pos heq]
  · have hilen : i < nf.length := heq ▸ hi
    have hmem := zip_getD_mem nf (succs g' b) i hilen hi Lo.bot 0
    have hnd' : ((nf.zip (succs g' b)).map Prod.snd).Nodup := by
      rw [List.map_snd_zip nf (succs g' b) (le_of_eq heq.symm)]
      exact hnd
    exact propagateList_spec Lo (nf.zip (succs g' b)) (Facts.ensure Lo fs b) rest hnd'
      _ hmem
  · simp only [fixpointF, hcb]
    rw [if_neg hne]
  · subst hf0
    simp only [fixpointF, hcb, List.length_singleton, List.headD_cons, if_true]
  · subst hf0
    have hmem : (f0, p) ∈ (preds g' b).map fun q => (f0, q) :=
      List.mem_map.2 ⟨p, hp, rfl⟩
    have hnd' : (((preds g' b).map fun q => (f0, q)).map Prod.snd).Nodup := by
      rw [List.map_map]
      simpa using hnd
    exact propagateList_spec Lo ((preds g' b).map fun q => (f0, q))
      (Facts.ensure Lo fs b) rest hnd' _ hmem

/-- Concrete instantiation of the C2 theorem: a block with two successors
receiving facts [true, false] over the Boolean lattice propagates a change
to the first successor only, and the same two-fact result is a fatal error
for the backward direction. -/
theorem fixpoint_step_propagation_witness :
    (fixpointF boolOps .forward (fun _ _ => [1, 2]) (fun _ _ => [1])
        (fun (_ : Unit) _ _ => .ok ((), [true, false])) 1 () [0] [false] =
      fixpointF boolOps .forward (fun _ _ => [1, 2]) (fun _ _ => [1])
        (fun (_ : Unit) _ _ => .ok ((), [true, false])) 0 ()
        (propagateList boolOps (Facts.ensure boolOps [false] 0) []
          ([true, false].zip [1, 2])).2
        (propagateList boolOps (Facts.ensure boolOps [false] 0) []
          ([true, false].zip [1, 2])).1) ∧
    ((1 : Nat) ∈ (propagateList boolOps (Facts.ensure boolOps [false] 0) []
        ([true, false].zip [1, 2])).2 ↔
      (1 : Nat) ∈ ([] : List Nat) ∨
      (boolOps.join ((Facts.ensure boolOps [false] 0).getD 1 boolOps.bot) true).2 = true) ∧
    fixpointF boolOps .backward (fun _ _ => [1, 2]) (fun _ _ => [1])
      (fun (_ : Unit) _ _ => .ok ((), [true, false])) 1 () [0] [false] =
      .error "backward fixpoint cannot handle facts of length other than one" := by
  obtain ⟨_, h2, h3, _⟩ := fixpoint_step_propagation boolOps
    (fun _ _ => [1, 2]) (fun _ _ => [1])
    (fun (_ : Unit) _ _ => .ok ((), [true, false])) 0 0 [] () () [false] [true, false] rfl
  exact ⟨(h2 rfl).1, ((h2 rfl).2 (by decide) 0 (by decide)).2, h3 (by decide)⟩

/-- Claim C3: for a finite CFG (every successor of every reachable graph
state lies below a bound N, the shallow rendering of a graph subjected to
only finitely many rewrites) and a finite-height lattice (witnessed by a
headroom function that strictly decreases on every changing join, with
joins that report no change leaving the value intact), the forward
worklist loop terminates: from any state some finite fuel makes the run
return normally, i.e. the pending queue empties after finitely many
pop-process-propagate steps.  The callback is assumed to respect the
engine's arity contract so the run is not cut short by the assertion. -/
theorem fixpoint_forward_terminates {G L : Type} (Lo : LatticeOps L)
    (succs preds : G → Nat → List Nat)
    (callback : G → Nat → L → Except String (G × List L))
    (hm : L → Nat) (N : Nat)
    (Hdec : ∀ a x, (Lo.join a x).2 = true → hm (Lo.join a x).1 < hm a)
    (Hsame : ∀ a x, (Lo.join a x).2 = false → (Lo.join a x).1 = a)
    (Hsucc : ∀ (g : G) b t, t ∈ succs g b → t < N)
    (Hcb : ∀ (g : G) b f, ∃ g' nf, callback g b f = .ok (g', nf) ∧
      nf.length = (succs g' b).length) :
    ∀ (g : G) (q : List Nat) (fs : List L),
      ∃ fuel fs', fixpointF Lo .forward succs preds callback fuel g q fs = .ok fs' := by
  suffices H : ∀ n (g : G) (q : List Nat) (fs : List L),
      factsMeasure Lo hm N fs + q.length ≤ n →
      ∃ fuel fs', fixpointF Lo .forward succs preds callback fuel g q fs = .ok fs' by
    exact fun g q fs => H (factsMeasure Lo hm N fs + q.length) g q fs le_rfl
  intro n
  induction n using Nat.strong_induction_on with
  | _ n ih =>
    intro g q fs hn
    cases q with
    | nil => exact ⟨0, fs, rfl⟩
    | cons b rest =>
      obtain ⟨g', nf, hcb, hlen⟩ := Hcb g b ((Facts.ensure Lo fs b).getD b Lo.bot)
      have htargets : ∀ p ∈ nf.zip (succs g' b), p.2 < N := by
        rintro ⟨x, t⟩ hp
        exact Hsucc g' b t (List.mem_zip hp).2
      have hmeas := propagateList_measure Lo hm Hdec Hsame N (nf.zip (succs g' b))
        (Facts.ensure Lo fs b) rest htargets
      rw [factsMeasure_ensure] at hmeas
      have hcons : (b :: rest).length = rest.length + 1 := rfl
      have hlt : factsMeasure Lo hm N
          (propagateList Lo (Facts.ensure Lo fs b) rest (nf.zip (succs g' b))).1 +
          (propagateList Lo (Facts.ensure Lo fs b) rest (nf.zip (succs g' b))).2.length < n := by
        omega
      obtain ⟨fuel, fs', hrun⟩ := ih _ hlt g'
        (propagateList Lo (Facts.ensure Lo fs b) rest (nf.zip (succs g' b))).2
        (propagateList Lo (Facts.ensure Lo fs b) rest (nf.zip (succs g' b))).1 le_rfl
      refine ⟨fuel + 1, fs', ?_⟩
      simp only [fixpointF, hcb]
      rw [if_pos hlen]
      exact hrun

/-- Concrete instantiation of the C3 theorem: a one-block graph that loops
on itself over the Boolean lattice still terminates. -/
theorem fixpoint_forward_terminates_witness :
    ∃ fuel fs', fixpointF boolOps .forward (fun (_ : Unit) _ => [0]) (fun _ _ => [])
      (fun (_ : Unit) _ _ => .ok ((), [true])) fuel () [0] [] = .ok fs' :=
  fixpoint_forward_terminates boolOps (fun _ _ => [0]) (fun _ _ => [])
    (fun _ _ _ => .ok ((), [true])) (fun a => if a then 0 else 1) 1
    (by decide) (by decide)
    (fun g b t ht => by
      rw [List.mem_singleton] at ht
      omega)
    (fun g b f => ⟨(), [true], rfl, rfl⟩) () [0] []

/-- Invariant behind claim C4: a forward fixpoint run never rewrites the
fact slot of a block that is not a successor of any block, since joins only
target successors and the auto-extension appends fresh slots. -/
theorem fixpoint_forward_preserves_nonsuccessor {G L : Type} (Lo : LatticeOps L)
    (succs preds : G → Nat → List Nat)
    (callback : G → Nat → L → Except String (G × List L)) (e : Nat)
    (hsucc : ∀ g b, e ∉ succs g b) :
    ∀ fuel (g : G) (q : List Nat) (fs fs' : List L), e < fs.length →
      fixpointF Lo .forward succs preds callback fuel g q fs = .ok fs' →
      fs'.get? e = fs.get? e := by
  intro fuel
  induction fuel with
  | zero =>
    intro g q fs fs' he hfix
    cases q with
    | nil =>
      simp only [fixpointF] at hfix
      cases hfix
      rfl
    | cons b rest =>
      simp only [fixpointF] at hfix
      cases hfix
  | succ fuel ih =>
    intro g q fs fs' he hfix
    cases q with
    | nil =>
      simp only [fixpointF] at hfix
      cases hfix
      rfl
    | cons b rest =>
      rcases hc : callback g b ((Facts.ensure Lo fs b).getD b Lo.bot) with msg | gnf
      · simp only [fixpointF, hc] at hfix
        cases hfix
      · rcases gnf with ⟨g', nf⟩
        simp only [fixpointF, hc] at hfix
        by_cases hlen : nf.length = (succs g' b).length
        · rw [if_pos hlen] at hfix
          have hens : e < (Facts.ensure Lo fs b).length :=
            lt_of_lt_of_le he (ensure_length_ge Lo fs b)
          have hnotin : e ∉ (nf.zip (succs g' b)).map Prod.snd := by
            rw [List.map_snd_zip nf (succs g' b) (le_of_eq hlen.symm)]
            exact hsucc g' b
          have hlen2 : e < (propagateList Lo (Facts.ensure Lo fs b) rest
              (nf.zip (succs g' b))).1.length :=
            lt_of_lt_of_le hens (propagateList_length_ge Lo _ _ _)
          rw [ih g' _ _ fs' hlen2 hfix,
            propagateList_get?_lt Lo _ _ _ e hens hnotin,
            ensure_get?_lt Lo fs b e he]
        · rw [if_neg hlen] at hfix
          cases hfix

/-- Claim C4: a forward analysis run on a graph whose entry block (index 0,
the seeded `START_BLOCK`) is never listed among any block's successors
returns a fact store whose entry is exactly the supplied initial fact: the
seed is never joined into or otherwise weakened. -/
theorem forward_entry_fact_preserved {G L : Type} (Lo : LatticeOps L)
    (succs preds : G → Nat → List Nat)
    (callback : G → Nat → L → Except String (G × List L))
    (hsucc : ∀ g b, 0 ∉ succs g b) (fuel : Nat) (g : G) (fs fs' : List L)
    (h0 : 0 < fs.length)
    (hrun : analyseForwardLoop Lo succs preds callback fuel g fs = .ok fs') :
    fs'.get? 0 = fs.get? 0 :=
  fixpoint_forward_preserves_nonsuccessor Lo succs preds callback 0 hsucc
    fuel g [0] fs fs' h0 hrun

/-- Concrete instantiation of the C4 theorem: an entry block with no
predecessors and no successors keeps its seeded fact. -/
theorem forward_entry_fact_preserved_witness :
    (analyseForwardLoop boolOps (fun _ _ => []) (fun _ _ => [])
      (fun (_ : Unit) _ _ => .ok ((), [])) 2 () [true]).isOk = true ∧
    (∀ fs', analyseForwardLoop boolOps (fun _ _ => []) (fun _ _ => [])
        (fun (_ : Unit) _ _ => .ok ((), [])) 2 () [true] = .ok fs' →
      fs'.get? 0 = some true) := by
  refine ⟨by decide, fun fs' hrun => ?_⟩
  rw [forward_entry_fact_preserved boolOps (fun _ _ => []) (fun _ _ => [])
    (fun (_ : Unit) _ _ => .ok ((), [])) (fun _ _ => List.not_mem_nil 0) 2 () [true] fs'
    (by decide) hrun]
  rfl

/-- Counterexample to claim C1: block 0 holds `[10, 11, 12]` with
terminator `99`; the rewriter replaces statement `11` (index 1) with a
splice whose entry block 1 holds the single statement `20` and no
terminator and whose exit block 2 is empty.  The splice leaves block 0 as
`[10, 20]` with NO terminator — the tail `[12]` and the terminator `99`
end up in the exit block 2 — and the subsequent forward processing of the
block fails on the `take().expect("invalid terminator state")`, instead of
producing `[10, 20, 12]` terminated by `99` at block 0 as claimed. -/
theorem splice_inline_counterexample :
    applyGraphSplice
      ([⟨[], some 99⟩, ⟨[20], none⟩, ⟨[], none⟩] : Mir Nat Nat) 0 1 2 [10, 11, 12] 1 =
      .ok ([⟨[], none⟩, ⟨[], none⟩, ⟨[12], some 99⟩], [10, 20]) ∧
    forwardBlockStep
      (fun (s : Nat) (_ : Nat) m => (if s = 11 then .graph 1 2 else .noChange, m))
      (fun _ _ m => (.noChange, m))
      (fun _ f => f) (fun _ f => [f]) 10
      ([⟨[10, 11, 12], some 99⟩, ⟨[20], none⟩, ⟨[], none⟩] : Mir Nat Nat) 0 0 =
      .error "invalid terminator state" := by
  constructor
  · rfl
  · rfl

/-- Claim C1 as amended: the `[s0, e0, s2] -> T` result holds when the
spliced subgraph's entry and exit are the same block (holding `[e0]`, no
terminator), which is the only way a statement splice can leave the
rewritten block with its original terminator; the subgraph is then inlined
at the rewritten statement's position with no separate head or exit block
remaining (the donor block is left empty).  With a distinct terminator-less
entry block the engine instead strands the tail in the exit block and
fails, as the counterexample shows.  Statements are rendered as the
naturals 0, 1, 2 (block 0) and 3 (the spliced-in statement), the
terminator as 99; the rewriter fires on statement 1 at index 1, and the
lattice, the incoming fact and both transfer functions stay abstract. -/
theorem splice_inline_single_block {L : Type} (fact : L)
    (Ts : Nat → L → L) (Tt : Nat → L → List L) :
    forwardBlockStep
      (fun s _ m => (if s = 1 then .graph 1 1 else .noChange, m))
      (fun _ _ m => (.noChange, m)) Ts Tt 6
      ([⟨[0, 1, 2], some 99⟩, ⟨[3], none⟩] : Mir Nat Nat) 0 fact =
      .ok ([⟨[0, 3, 2], some 99⟩, ⟨[], none⟩],
        Tt 99 (Ts 2 (Ts 3 (Ts 3 (Ts 0 fact))))) := rfl

/-- Concrete instantiation of the C1 amended theorem with the additive
transfer function over Nat facts. -/
theorem splice_inline_single_block_witness :
    forwardBlockStep
      (fun s _ m => (if s = 1 then .graph 1 1 else .noChange, m))
      (fun _ _ m => (.noChange, m)) (fun s f => f + s) (fun t f => [f + t]) 6
      ([⟨[0, 1, 2], some 99⟩, ⟨[3], none⟩] : Mir Nat Nat) 0 0 =
      .ok ([⟨[0, 3, 2], some 99⟩, ⟨[], none⟩], [107]) := by
  rw [splice_inline_single_block 0 (fun s f => f + s) (fun t f => [f + t])]

theorem except_ok_bind {α β : Type} (a : α) (k : α → Except String β) :
    ((Except.ok a : Except String α) >>= k) = k a := rfl

theorem except_error_bind {α β : Type} (e : String) (k : α → Except String β) :
    ((Except.error e : Except String α) >>= k) = Except.error e := rfl

/-- Counterexample to claim C9: a terminator-level splice whose exit block
(block 2) has NO terminator does not fail at all — the engine never
inspects the exit block of a terminator splice.  Block 0's terminator `50`
is spliced with entry block 1 (`[7]` terminated by `60`) and terminator-less
exit block 2; the step returns successfully, block 0 becomes `[7] -> 60`
and block 2 is left terminator-less. -/
theorem terminator_splice_exit_unchecked_counterexample :
    forwardBlockStep
      (fun (_ : Nat) (_ : Nat) m => (.noChange, m))
      (fun t _ m => (if t = 50 then .graph 1 2 else .noChange, m))
      (fun _ f => f) (fun _ f => [f]) 2
      ([⟨[], some 50⟩, ⟨[7], some 60⟩, ⟨[], none⟩] : Mir Nat Nat) 0 0 =
      .ok ([⟨[7], some 60⟩, ⟨[], none⟩, ⟨[], none⟩], [0]) := rfl

/-- Claim C9 as amended: only the statement-level half of the invariant is
checked.  A statement-level splice whose exit block already carries a
terminator hits the `debug_assert!` and fails loudly with "exit block must
have no terminator set!"; a terminator-level splice with a terminator-less
exit block is not detected in the engine's splice handling (see the
counterexample). -/
theorem statement_splice_exit_terminator_check {Stmt Term L : Type}
    (rw : StmtRewriter Stmt L (Mir Stmt Term)) (Ts : Stmt → L → L)
    (fuel : Nat) (m m0 : Mir Stmt Term) (bb e x idx : Nat) (stmts : List Stmt)
    (s : Stmt) (fact : L) (xb : BBlock Stmt Term) (tx : Term)
    (hget : stmts.get? idx = some s)
    (hr : rw s fact m = (.graph e x, m0))
    (hx : m0.get? x = some xb)
    (ht : xb.terminator = some tx) :
    arsLoop rw Ts (fuel + 1) m bb fact stmts idx =
      .error "exit block must have no terminator set!" := by
  have hxlt : x < m0.length := by
    rcases List.get?_eq_some.1 hx with ⟨h, _⟩
    exact h
  have hupd : (updateBlk m0 x fun b =>
      { b with statements := b.statements ++ stmts.drop (idx + 1) }).get? x =
      some { xb with statements := xb.statements ++ stmts.drop (idx + 1) } := by
    simp only [updateBlk, hx]
    rw [List.get?_set_eq_of_lt _ (by simpa using hxlt)]
  simp only [arsLoop, hget, hr, applyGraphSplice, getBlk, hx, hupd, ht,
    Option.isSome_some, if_true, except_ok_bind, except_error_bind]

/-- Concrete instantiation of the C9 amended theorem: splicing statement 1
against an exit block that already carries terminator `77` fails with the
assertion message. -/
theorem statement_splice_exit_terminator_check_witness :
    arsLoop (fun (s : Nat) (_ : Nat) m => (if s = 1 then .graph 1 2 else .noChange, m))
      (fun _ f => f) 3
      ([⟨[], some 99⟩, ⟨[], none⟩, ⟨[], some 77⟩] : Mir Nat Nat) 0 0 [0, 1, 2] 1 =
      .error "exit block must have no terminator set!" :=
  statement_splice_exit_terminator_check
    (fun (s : Nat) (_ : Nat) m => (if s = 1 then .graph 1 2 else .noChange, m))
    (fun _ f => f) 2
    [⟨[], some 99⟩, ⟨[], none⟩, ⟨[], some 77⟩]
    [⟨[], some 99⟩, ⟨[], none⟩, ⟨[], some 77⟩]
    0 1 2 1 [0, 1, 2] 1 0 ⟨[], some 77⟩ 77 rfl rfl rfl rfl

/-- Claim C10: when a statement-level splice succeeds and the spliced-in
entry block contributed at least one statement, the loop applies the
transfer function to the first such statement without advancing the
statement index; the next iteration therefore re-examines that very
statement, and if the rewriter then reports no change the transfer function
is applied to it a second time — on the already-advanced fact — before the
index finally moves on. -/
theorem splice_retransfer_first_entry_statement {Stmt Term L : Type}
    (rw : StmtRewriter Stmt L (Mir Stmt Term)) (Ts : Stmt → L → L)
    (fuel : Nat) (m m0 m1 m2 : Mir Stmt Term) (bb e x idx : Nat)
    (stmts stmts1 : List Stmt) (s e0 : Stmt) (fact : L)
    (hget : stmts.get? idx = some s)
    (hr : rw s fact m = (.graph e x, m0))
    (hsp : applyGraphSplice m0 bb e x stmts idx = .ok (m1, stmts1))
    (he0 : stmts1.get? idx = some e0)
    (hr2 : rw e0 (Ts e0 fact) m1 = (.noChange, m2)) :
    arsLoop rw Ts (fuel + 2) m bb fact stmts idx =
      arsLoop rw Ts fuel m2 bb (Ts e0 (Ts e0 fact)) stmts1 (idx + 1) := by
  simp only [arsLoop, hget, hr, hsp, he0, hr2, except_ok_bind]

/-- Concrete instantiation of the C10 theorem with the additive transfer
function: the spliced-in statement `3` is transferred twice (the fact grows
by 3 twice) before the index moves past it. -/
theorem splice_retransfer_first_entry_statement_witness :
    arsLoop (fun (s : Nat) (_ : Nat) m => (if s = 1 then .graph 1 1 else .noChange, m))
      (fun s f => f + s) 4
      ([⟨[], some 99⟩, ⟨[3], none⟩] : Mir Nat Nat) 0 0 [0, 1, 2] 1 =
      .ok ([⟨[], some 99⟩, ⟨[], none⟩], [0, 3, 2], 8) := by
  rw [splice_retransfer_first_entry_statement
    (fun (s : Nat) (_ : Nat) m => (if s = 1 then .graph 1 1 else .noChange, m))
    (fun s f => f + s) 2
    [⟨[], some 99⟩, ⟨[3], none⟩] [⟨[], some 99⟩, ⟨[3], none⟩]
    [⟨[], some 99⟩, ⟨[], none⟩] [⟨[], some 99⟩, ⟨[], none⟩]
    0 1 1 1 [0, 1, 2] [0, 3, 2] 1 3 0 rfl rfl rfl rfl rfl]
  rfl

end MirDataflow
